import Mathlib

/-!
Shallow embedding of `src/buildpost/utils/token_resolver.py` (class
`TokenCounter`): token counting, budget allocation and diff truncation.

Modelling conventions:
- Python strings are modelled as `List Char` (`Str`), so that `str.split`,
  `str.join` and slicing can be given executable definitions with the same
  semantics as CPython.
- The third-party `tiktoken` tokenizer is external to the repository; it is
  modelled abstractly as an `Encoding` (a pair of total functions
  `encode`/`decode`).  A `TokenCounter` carries `Option Encoding`: the
  effective tokenizer after the lazy construction in `_get_encoding`
  (`some e` when construction succeeded, `none` when `tiktoken` is
  unavailable, in which case every counting call uses `_estimate_tokens`).
  Exceptions are not modelled (all Lean functions are total); the
  `except` branches of the source degrade to the same fallback.
- Python `float` division in `truncate_to_limit`'s estimate branch is
  modelled by exact rational arithmetic (`ℚ`) followed by `int()`error-free
  truncation toward zero (`pyInt`); no claim depends on rounding ulps.
- `str.split(sep)` is implemented with a fuel parameter (`splitFuel`) so the
  function is structurally recursive and kernel-reducible; the fuel
  `s.length` always suffices because each removed separator consumes
  `sep.length ≥ 1` characters.
-/

abbrev Str := List Char

/-- Abstract model of a `tiktoken` encoding object: `encode` maps text to a
token sequence, `decode` maps token sequences back to text. -/
structure Encoding where
  encode : Str → List Nat
  decode : List Nat → Str

/-- Python `s.split(sep)` on `List Char`, with explicit fuel (structural
recursion, hence kernel-computable).  Scans left to right; at each position
where `sep` is a prefix, emits the accumulated piece and skips `sep`.
Mirrors CPython semantics for a non-empty separator; for `sep = []` the
guard fails and the whole string is returned as one piece. -/
def splitFuel (sep : Str) : Nat → Str → List Str
  | _, [] => [[]]
  | 0, s => [s]
  | n+1, c :: cs =>
    if sep ≠ [] ∧ sep.isPrefixOf (c :: cs) then
      [] :: splitFuel sep n (cs.drop (sep.length - 1))
    else
      match splitFuel sep n cs with
      | [] => [[c]]
      | p :: ps => (c :: p) :: ps

/-- Python `s.split(sep)`: `splitFuel` with fuel `s.length`. -/
def splitOnL (sep s : Str) : List Str := splitFuel sep s.length s

/-- Python `sep.join(parts)` on `List Char`. -/
def joinSep (sep : Str) : List Str → Str
  | [] => []
  | [p] => p
  | p :: q :: t => p ++ sep ++ joinSep sep (q :: t)

/-- Python `sep in s` (substring containment), executable. -/
def containsSub (sep : Str) : Str → Bool
  | [] => sep.isEmpty
  | c :: cs => sep.isPrefixOf (c :: cs) || containsSub sep cs

/-- Python slice `l[:i]` for an arbitrary (possibly negative) integer `i`. -/
def pyTake (i : Int) (l : List α) : List α :=
  if i < 0 then l.take (l.length - (-i).toNat) else l.take i.toNat

/-- Python `int()` applied to an exact rational: truncation toward zero. -/
def pyInt (q : ℚ) : Int := q.num.tdiv q.den

/-- The per-file diff boundary marker `'diff --git'` (source line 214). -/
def MARKER : Str := "diff --git".toList

/-- Default suffix of `truncate_to_limit` (source line 150). -/
def SUFFIX_DEFAULT : Str := "\n\n... (diff truncated for token limit)".toList

/-- Generic truncation suffix used on the no-file-structure path of
`truncate_intelligently` (source line 217). -/
def SUFFIX_SINGLE : Str :=
  "\n\n... (diff truncated - too large for context window)".toList

/-- Truncation-notice suffix of the boundary-aware path (source line 222). -/
def SUFFIX_MULTI : Str :=
  "\n\n... (remaining files truncated - too large for context window)".toList

/-- State of `TokenCounter` relevant to the pure counting/truncation
methods: the provider name and the effective (post-construction) tokenizer. -/
structure TokenCounter where
  provider : String
  _encoding : Option Encoding

namespace TokenCounter

/-- `TokenCounter.PROVIDER_LIMITS` (source lines 10-36). -/
def PROVIDER_LIMITS : List (String × List (String × Nat)) :=
  [ ("openai",
      [ ("gpt-4o-mini", 128000), ("gpt-4o", 128000), ("gpt-4-turbo", 128000),
        ("gpt-4", 8192), ("gpt-3.5-turbo", 16385) ]),
    ("groq",
      [ ("qwen/qwen3-32b", 32768), ("llama-3.1-70b-versatile", 131072),
        ("llama-3.1-8b-instant", 131072), ("mixtral-8x7b-32768", 32768),
        ("gemma2-9b-it", 8192) ]),
    ("claude",
      [ ("claude-sonnet-4-5", 200000), ("claude-sonnet-4", 200000),
        ("claude-opus-4", 200000), ("claude-opus-4-1", 200000),
        ("claude-3-5-sonnet-20241022", 200000),
        ("claude-3-5-sonnet-20240620", 200000),
        ("claude-3-opus-20240229", 200000),
        ("claude-3-sonnet-20240229", 200000),
        ("claude-3-haiku-20240307", 200000) ]) ]

/-- `TokenCounter.PROMPT_SIZES` (source lines 39-43). -/
def PROMPT_SIZES : List (String × Nat) :=
  [ ("commit_conventional", 600), ("commit_detailed", 850),
    ("commit_simple", 500) ]

/-- `TokenCounter._estimate_tokens` (source line 97): `len(text) // 3`. -/
def _estimate_tokens (text : Str) : Nat := text.length / 3

/-- `TokenCounter.count_tokens` (source lines 65-83): exact tokenizer when
available, character estimate otherwise. -/
def count_tokens (tc : TokenCounter) (text : Str) : Nat :=
  match tc._encoding with
  | some encoding => (encoding.encode text).length
  | none => _estimate_tokens text

/-- `TokenCounter.get_model_limit` (source lines 99-110). -/
def get_model_limit (tc : TokenCounter) (model : String) : Nat :=
  let provider_limits := (PROVIDER_LIMITS.lookup tc.provider).getD []
  (provider_limits.lookup model).getD 8000

/-- `TokenCounter.calculate_max_diff_tokens` (source lines 112-144), with
the source's default arguments.  Reservation parameters are Python `int`s,
hence modelled as `Int`. -/
def calculate_max_diff_tokens (tc : TokenCounter) (model : String)
    (prompt_style : String := "commit_conventional")
    (output_reserve : Int := 1000) (files_list_reserve : Int := 100)
    (safety_margin : Int := 500) : Int :=
  let total_limit : Int := tc.get_model_limit model
  let prompt_tokens : Int := ((PROMPT_SIZES.lookup prompt_style).getD 700 : Nat)
  let max_diff_tokens :=
    total_limit - prompt_tokens - output_reserve - files_list_reserve
      - safety_margin
  max max_diff_tokens 1000

/-- `TokenCounter.truncate_to_limit` (source lines 146-190). -/
def truncate_to_limit (tc : TokenCounter) (text : Str) (max_tokens : Int)
    (suffix : Str := SUFFIX_DEFAULT) : Str × Nat × Nat :=
  let original_tokens := tc.count_tokens text
  if (original_tokens : Int) ≤ max_tokens then
    (text, original_tokens, original_tokens)
  else
    let suffix_tokens := tc.count_tokens suffix
    let available_tokens : Int := max_tokens - suffix_tokens
    match tc._encoding with
    | some encoding =>
      let tokens := encoding.encode text
      let truncated_tokens := pyTake available_tokens tokens
      let truncated_text := encoding.decode truncated_tokens
      let result := truncated_text ++ suffix
      (result, original_tokens, tc.count_tokens result)
    | none =>
      let chars_per_token : ℚ :=
        if original_tokens > 0 then (text.length : ℚ) / (original_tokens : ℚ)
        else 3
      let max_chars : Int := pyInt ((available_tokens : ℚ) * chars_per_token)
      let truncated_text := pyTake max_chars text ++ suffix
      (truncated_text, original_tokens, tc.count_tokens truncated_text)

/-- The accumulation loop of `truncate_intelligently` (source lines
227-238).  Returns `some accepted` when the loop exits via `break`
(`accepted` is the list of file parts appended to `result_parts` before the
break) and `none` when the loop runs to completion (Python's `for ... else`
branch fires and `result_parts` is replaced by `file_diffs`). -/
def accumulateParts (tc : TokenCounter) (suffix_tokens : Nat)
    (max_tokens : Int) : Nat → List Str → Option (List Str)
  | _, [] => none
  | current_tokens, file_diff :: rest =>
    let full_diff := MARKER ++ file_diff
    let file_tokens := tc.count_tokens full_diff
    if (current_tokens + file_tokens + suffix_tokens : Int) > max_tokens then
      some []
    else
      match accumulateParts tc suffix_tokens max_tokens
          (current_tokens + file_tokens) rest with
      | none => none
      | some acc => some (file_diff :: acc)

/-- Reassembly step of `truncate_intelligently` (source lines 220-240):
builds `result_parts` from the loop outcome and joins it exactly as
`'diff --git'.join(result_parts) if result_parts[0] == '' else
'\n'.join(result_parts)` does. -/
def assembleResult (tc : TokenCounter) (max_tokens : Int)
    (file_diffs : List Str) : Str :=
  let suffix := SUFFIX_MULTI
  let suffix_tokens := tc.count_tokens suffix
  let file_parts :=
    if file_diffs.head? = some [] then file_diffs.tail else file_diffs
  let result_parts :=
    match accumulateParts tc suffix_tokens max_tokens 0 file_parts with
    | some accepted => [] :: (accepted ++ [suffix])
    | none => file_diffs
  if result_parts.head? = some [] then joinSep MARKER result_parts
  else joinSep ['\n'] result_parts

/-- `TokenCounter.truncate_intelligently` (source lines 192-243). -/
def truncate_intelligently (tc : TokenCounter) (diff_text : Str)
    (max_tokens : Int) (preserve_start : Bool := true) : Str × Nat × Nat :=
  let original_tokens := tc.count_tokens diff_text
  if (original_tokens : Int) ≤ max_tokens then
    (diff_text, original_tokens, original_tokens)
  else
    let file_diffs := splitOnL MARKER diff_text
    if file_diffs.length ≤ 1 then
      tc.truncate_to_limit diff_text max_tokens SUFFIX_SINGLE
    else
      let result := tc.assembleResult max_tokens file_diffs
      (result, original_tokens, tc.count_tokens result)

end TokenCounter

/-!
Stateful model of the lazy tokenizer construction (`_get_encoding`, source
lines 55-63), used for the temporal claim about memoization.  The cached
handle `self._encoding` is explicit state; the outcome the environment
(`tiktoken.get_encoding`) would produce if invoked is an input of each
call (`some e` = construction succeeds, `none` = construction raises, in
which case the `except` branch stores `None` back into the cache).
-/

/-- The mutable state of a `TokenCounter`: the `self._encoding` cache. -/
structure TCState where
  _encoding : Option Encoding

/-- One call to `TokenCounter._get_encoding` (source lines 55-63).  Returns
the encoding handed to the caller, the updated cache, and whether a
construction attempt (`tiktoken.get_encoding`) was made during this call. -/
def _get_encoding (st : TCState) (constructed : Option Encoding) :
    Option Encoding × TCState × Bool :=
  match st._encoding with
  | some e => (some e, st, false)
  | none => (constructed, ⟨constructed⟩, true)

/-- A sequence of `_get_encoding` calls threading the cache, where the
`i`-th element of `outcomes` is what construction would yield on the `i`-th
call if attempted.  Returns the final state and the number of construction
attempts made across the sequence. -/
def runCalls : TCState → List (Option Encoding) → TCState × Nat
  | st, [] => (st, 0)
  | st, c :: cs =>
    let r := _get_encoding st c
    let rest := runCalls r.2.1 cs
    (rest.1, (if r.2.2 then 1 else 0) + rest.2)

/-- Number of construction attempts the source actually performs starting
from an empty cache: one per call until (and including) the first
successful construction, because a failed attempt stores `None`, which is
indistinguishable from "never attempted". -/
def attemptsUntilSuccess : List (Option Encoding) → Nat
  | [] => 0
  | some _ :: _ => 1
  | none :: cs => 1 + attemptsUntilSuccess cs

/-!
Auxiliary theory of `splitOnL` / `joinSep`: the step equations of the
splitter, the split/join round trips, and the fact that the pieces of a
split never contain the separator.  `noOverlap sep` states that `sep` has
no non-trivial self-overlap (no proper border); `'diff --git'` satisfies it,
and it is what makes occurrences of the separator in a `joinSep`-assembly
exactly the inserted ones.
-/

/-- The separator has no non-trivial self-overlap: no proper non-empty
suffix of `sep` is also one of its non-empty proper initial segments. -/
def noOverlap (sep : Str) : Prop :=
  ∀ j, j < sep.length → 0 < j → sep.drop j ≠ sep.take (sep.length - j)

/-- Bridge from the executable `isPrefixOf` to the inductive `<+:`. -/
theorem prefOf_iff {l m : Str} : l.isPrefixOf m = true ↔ l <+: m :=
  List.isPrefixOf_iff_prefix

theorem splitFuel_nil (sep : Str) (n : Nat) : splitFuel sep n [] = [[]] := by
  cases n <;> rfl

/-- The fuel does not matter as long as it covers the string's length. -/
theorem splitFuel_irrel (sep : Str) :
    ∀ n m s, s.length ≤ n → s.length ≤ m →
      splitFuel sep n s = splitFuel sep m s := by
  intro n
  induction n with
  | zero =>
    intro m s hn _
    have : s = [] := List.eq_nil_of_length_eq_zero (Nat.le_zero.mp hn)
    subst this
    simp [splitFuel_nil]
  | succ n ih =>
    intro m s hn hm
    match s with
    | [] => simp [splitFuel_nil]
    | c :: cs =>
      match m with
      | 0 => simp at hm
      | m + 1 =>
        simp only [List.length_cons, Nat.succ_le_succ_iff] at hn hm
        by_cases h : sep ≠ [] ∧ sep.isPrefixOf (c :: cs)
        · rw [splitFuel, splitFuel, if_pos h, if_pos h]
          have hd : (cs.drop (sep.length - 1)).length ≤ cs.length := by
            simp [List.length_drop]
          rw [ih _ _ (le_trans hd hn) (le_trans hd hm)]
        · rw [splitFuel, splitFuel, if_neg h, if_neg h, ih _ _ hn hm]

theorem splitFuel_eq_splitOnL (sep : Str) {n : Nat} {s : Str}
    (h : s.length ≤ n) : splitFuel sep n s = splitOnL sep s :=
  splitFuel_irrel sep n s.length s h le_rfl

theorem splitOnL_nil (sep : Str) : splitOnL sep [] = [[]] := rfl

/-- Step equation of the splitter at an occurrence of the separator. -/
theorem splitOnL_cons_pos {sep : Str} (c : Char) (cs : Str)
    (h1 : sep ≠ []) (h2 : sep.isPrefixOf (c :: cs)) :
    splitOnL sep (c :: cs) = [] :: splitOnL sep (cs.drop (sep.length - 1)) := by
  show splitFuel sep (cs.length + 1) (c :: cs) = _
  rw [splitFuel, if_pos ⟨h1, h2⟩,
    splitFuel_eq_splitOnL sep (by simp [List.length_drop])]

/-- Step equation of the splitter away from an occurrence. -/
theorem splitOnL_cons_neg {sep : Str} (c : Char) (cs : Str)
    (h : ¬ (sep ≠ [] ∧ sep.isPrefixOf (c :: cs))) :
    splitOnL sep (c :: cs) =
      match splitOnL sep cs with
      | [] => [[c]]
      | p :: ps => (c :: p) :: ps := by
  show splitFuel sep (cs.length + 1) (c :: cs) = _
  rw [splitFuel, if_neg h]
  rfl

theorem splitOnL_ne_nil (sep s : Str) : splitOnL sep s ≠ [] := by
  match s with
  | [] => simp [splitOnL_nil]
  | c :: cs =>
    by_cases h : sep ≠ [] ∧ sep.isPrefixOf (c :: cs)
    · rw [splitOnL_cons_pos c cs h.1 h.2]; simp
    · rw [splitOnL_cons_neg c cs h]
      match splitOnL sep cs with
      | [] => simp
      | p :: ps => simp

/-- The first piece of a split is an initial segment of the string. -/
theorem splitOnL_head_pre (sep : Str) :
    ∀ n s, s.length ≤ n → ∀ p ps, splitOnL sep s = p :: ps → p <+: s := by
  intro n
  induction n with
  | zero =>
    intro s hn p ps hsp
    have : s = [] := List.eq_nil_of_length_eq_zero (Nat.le_zero.mp hn)
    subst this
    rw [splitOnL_nil] at hsp
    cases hsp
    exact List.nil_prefix
  | succ n ih =>
    intro s hn p ps hsp
    match s with
    | [] =>
      rw [splitOnL_nil] at hsp
      cases hsp
      exact List.nil_prefix
    | c :: cs =>
      simp only [List.length_cons, Nat.succ_le_succ_iff] at hn
      by_cases h : sep ≠ [] ∧ sep.isPrefixOf (c :: cs)
      · rw [splitOnL_cons_pos c cs h.1 h.2] at hsp
        cases hsp
        exact List.nil_prefix
      · rw [splitOnL_cons_neg c cs h] at hsp
        obtain ⟨q, qs, hq⟩ : ∃ q qs, splitOnL sep cs = q :: qs := by
          cases hqq : splitOnL sep cs with
          | nil => exact absurd hqq (splitOnL_ne_nil sep cs)
          | cons q qs => exact ⟨q, qs, rfl⟩
        rw [hq] at hsp
        injection hsp with h1 h2
        subst h1
        have hqpre : q <+: cs := ih cs hn q qs hq
        obtain ⟨t, ht⟩ := hqpre
        exact ⟨t, by simp [ht]⟩

/-- A non-empty separator never occurs inside a piece of the split. -/
theorem splitOnL_not_contains {sep : Str} (hsep : sep ≠ []) :
    ∀ n s, s.length ≤ n →
      ∀ p ∈ splitOnL sep s, containsSub sep p = false := by
  intro n
  induction n with
  | zero =>
    intro s hn p hp
    have : s = [] := List.eq_nil_of_length_eq_zero (Nat.le_zero.mp hn)
    subst this
    rw [splitOnL_nil] at hp
    simp at hp
    subst hp
    simpa [containsSub, List.isEmpty_iff] using hsep
  | succ n ih =>
    intro s hn p hp
    match s with
    | [] =>
      rw [splitOnL_nil] at hp
      simp at hp
      subst hp
      simpa [containsSub, List.isEmpty_iff] using hsep
    | c :: cs =>
      simp only [List.length_cons, Nat.succ_le_succ_iff] at hn
      by_cases h : sep ≠ [] ∧ sep.isPrefixOf (c :: cs)
      · rw [splitOnL_cons_pos c cs h.1 h.2] at hp
        rcases List.mem_cons.mp hp with h0 | hmem
        · subst h0
          simpa [containsSub, List.isEmpty_iff] using hsep
        · have hd : (cs.drop (sep.length - 1)).length ≤ n :=
            le_trans (by simp [List.length_drop]) hn
          exact ih _ hd p hmem
      · rw [splitOnL_cons_neg c cs h] at hp
        obtain ⟨q, qs, hq⟩ : ∃ q qs, splitOnL sep cs = q :: qs := by
          cases hqq : splitOnL sep cs with
          | nil => exact absurd hqq (splitOnL_ne_nil sep cs)
          | cons q qs => exact ⟨q, qs, rfl⟩
        rw [hq] at hp
        rcases List.mem_cons.mp hp with h0 | hmem
        · subst h0
          have hqc : containsSub sep q = false := by
            apply ih cs hn q
            rw [hq]; exact List.mem_cons_self q qs
          have hnpf : sep.isPrefixOf (c :: q) = false := by
            by_contra hb
            have hpf : sep <+: c :: q :=
              prefOf_iff.mp (by revert hb; cases sep.isPrefixOf (c :: q) <;> simp)
            have hqpre : q <+: cs := splitOnL_head_pre sep n cs hn q qs hq
            obtain ⟨t, ht⟩ := hqpre
            have : sep <+: c :: cs := hpf.trans ⟨t, by simp [ht]⟩
            exact h ⟨hsep, prefOf_iff.mpr this⟩
          simp [containsSub, hnpf, hqc]
        · apply ih cs hn p
          rw [hq]; exact List.mem_cons_of_mem q hmem

theorem joinSep_cons_head (sep : Str) (c : Char) (q : Str) (qs : List Str) :
    joinSep sep ((c :: q) :: qs) = c :: joinSep sep (q :: qs) := by
  cases qs with
  | nil => rfl
  | cons q' t => simp [joinSep, List.cons_append]

/-- Joining a split with its separator recovers the original string:
`'sep'.join(s.split('sep')) == s`. -/
theorem joinSep_splitOnL {sep : Str} (hsep : sep ≠ []) :
    ∀ n s, s.length ≤ n → joinSep sep (splitOnL sep s) = s := by
  intro n
  induction n with
  | zero =>
    intro s hn
    have : s = [] := List.eq_nil_of_length_eq_zero (Nat.le_zero.mp hn)
    subst this
    rw [splitOnL_nil]
    rfl
  | succ n ih =>
    intro s hn
    match s with
    | [] => rw [splitOnL_nil]; rfl
    | c :: cs =>
      simp only [List.length_cons, Nat.succ_le_succ_iff] at hn
      by_cases h : sep ≠ [] ∧ sep.isPrefixOf (c :: cs)
      · rw [splitOnL_cons_pos c cs h.1 h.2]
        set d := cs.drop (sep.length - 1) with hd
        obtain ⟨r, rs, hr⟩ : ∃ r rs, splitOnL sep d = r :: rs := by
          cases hqq : splitOnL sep d with
          | nil => exact absurd hqq (splitOnL_ne_nil sep d)
          | cons r rs => exact ⟨r, rs, rfl⟩
        have hdlen : d.length ≤ n := by
          have : d.length ≤ cs.length := by simp [hd, List.length_drop]
          exact le_trans this hn
        have hjoin : joinSep sep ([] :: r :: rs) = sep ++ joinSep sep (r :: rs) := by
          simp [joinSep]
        rw [hr, hjoin, ← hr, ih d hdlen]
        -- it remains to see that `c :: cs = sep ++ d`
        obtain ⟨t, ht⟩ := prefOf_iff.mp h.2
        have hk : ∃ k, sep.length = k + 1 := by
          cases hsl : sep.length with
          | zero => exact absurd (List.eq_nil_of_length_eq_zero hsl) hsep
          | succ k => exact ⟨k, rfl⟩
        obtain ⟨k, hk⟩ := hk
        have hdt : d = t := by
          have h1 : (sep ++ t).drop sep.length = t := List.drop_left sep t
          rw [ht] at h1
          rw [hd, hk]
          rw [hk] at h1
          simpa [List.drop_succ_cons] using h1
        rw [hdt, ht]
      · rw [splitOnL_cons_neg c cs h]
        obtain ⟨q, qs, hq⟩ : ∃ q qs, splitOnL sep cs = q :: qs := by
          cases hqq : splitOnL sep cs with
          | nil => exact absurd hqq (splitOnL_ne_nil sep cs)
          | cons q qs => exact ⟨q, qs, rfl⟩
        rw [hq]
        show joinSep sep ((c :: q) :: qs) = c :: cs
        rw [joinSep_cons_head, ← hq, ih cs hn]

/-- A string not containing the separator splits into a single piece. -/
theorem splitOnL_of_not_contains {sep : Str} :
    ∀ p, containsSub sep p = false → splitOnL sep p = [p] := by
  intro p
  induction p with
  | nil => intro _; rw [splitOnL_nil]
  | cons c cs ih =>
    intro hc
    have hparts : sep.isPrefixOf (c :: cs) = false ∧ containsSub sep cs = false := by
      simpa [containsSub] using hc
    have hneg : ¬ (sep ≠ [] ∧ sep.isPrefixOf (c :: cs)) := by
      intro hcontra
      rw [hparts.1] at hcontra
      exact Bool.false_ne_true hcontra.2
    rw [splitOnL_cons_neg c cs hneg, ih hparts.2]

/-- An occurrence of `sep` as a leading segment makes `containsSub` true. -/
theorem containsSub_of_pre {sep s : Str} (hsep : sep ≠ []) (h : sep <+: s) :
    containsSub sep s = true := by
  cases s with
  | nil =>
    obtain ⟨t, ht⟩ := h
    cases sep with
    | nil => exact absurd rfl hsep
    | cons a as => simp at ht
  | cons c cs => simp [containsSub, prefOf_iff.mpr h]

/-- Key splitting step: scanning `p ++ sep ++ r` for an overlap-free `sep`
absent from `p` finds the inserted separator first. -/
theorem splitOnL_append_sep {sep : Str} (hsep : sep ≠ []) (hno : noOverlap sep) :
    ∀ p r, containsSub sep p = false →
      splitOnL sep (p ++ sep ++ r) = p :: splitOnL sep r := by
  intro p
  induction p with
  | nil =>
    intro r _
    obtain ⟨s0, sep', hs⟩ : ∃ s0 sep', sep = s0 :: sep' := by
      cases sep with
      | nil => exact absurd rfl hsep
      | cons s0 sep' => exact ⟨s0, sep', rfl⟩
    subst hs
    show splitOnL (s0 :: sep') (s0 :: (sep' ++ r)) = [] :: splitOnL (s0 :: sep') r
    have hpf : (s0 :: sep').isPrefixOf (s0 :: (sep' ++ r)) = true := by
      apply prefOf_iff.mpr
      exact List.prefix_append (s0 :: sep') r
    rw [splitOnL_cons_pos s0 (sep' ++ r) (by simp) hpf]
    congr 2
    simp only [List.length_cons, Nat.add_sub_cancel]
    exact List.drop_left sep' r
  | cons c p' ih =>
    intro r hc
    have hparts : sep.isPrefixOf (c :: p') = false ∧ containsSub sep p' = false := by
      simpa [containsSub] using hc
    have hstr : (c :: p') ++ sep ++ r = c :: (p' ++ sep ++ r) := by simp
    -- no occurrence of `sep` starts at the head
    have hnpf : ¬ sep <+: c :: (p' ++ sep ++ r) := by
      intro hpf
      by_cases hlen : sep.length ≤ (c :: p').length
      · -- the occurrence would lie inside `c :: p'`
        have h1 : sep = (c :: (p' ++ sep ++ r)).take sep.length :=
          List.prefix_iff_eq_take.mp hpf
        have h2 : (c :: (p' ++ sep ++ r)).take sep.length
            = ((c :: p') ++ (sep ++ r)).take sep.length := by simp
        have h3 : ((c :: p') ++ (sep ++ r)).take sep.length
            = (c :: p').take sep.length := List.take_append_of_le_length hlen
        have hpre : sep <+: c :: p' := by
          rw [h1, h2, h3]
          exact ⟨(c :: p').drop sep.length, List.take_append_drop _ _⟩
        rw [containsSub_of_pre hsep hpre] at hc
        simp at hc
      · -- the occurrence would straddle into the inserted `sep`: overlap
        push_neg at hlen
        obtain ⟨t, ht⟩ := hpf
        set j := (c :: p').length with hj
        have hj0 : 0 < j := by simp [hj]
        have hjk : j < sep.length := hlen
        have hdropeq : sep.drop j ++ t = sep ++ r := by
          have h1 : (sep ++ t).drop j = sep.drop j ++ t :=
            List.drop_append_of_le_length (le_of_lt hjk)
          have h2 : (c :: (p' ++ sep ++ r)).drop j = sep ++ r := by
            have : c :: (p' ++ sep ++ r) = (c :: p') ++ (sep ++ r) := by simp
            rw [this, hj]
            exact List.drop_left (c :: p') (sep ++ r)
          rw [← h1, ht, h2]
        have hover : sep.drop j = sep.take (sep.length - j) := by
          have h1 : (sep.drop j ++ t).take (sep.length - j) = sep.drop j := by
            apply List.take_left'
            simp [List.length_drop]
          have h2 : (sep ++ r).take (sep.length - j) = sep.take (sep.length - j) :=
            List.take_append_of_le_length (Nat.sub_le _ _)
          rw [hdropeq] at h1
          rw [h2] at h1
          exact h1.symm
        exact hno j hjk hj0 hover
    have hneg : ¬ (sep ≠ [] ∧ sep.isPrefixOf (c :: (p' ++ sep ++ r))) := by
      intro hcontra
      exact hnpf (prefOf_iff.mp hcontra.2)
    rw [hstr, splitOnL_cons_neg c (p' ++ sep ++ r) hneg, ih r hparts.2]

/-- Splitting a `joinSep`-assembly of separator-free pieces recovers
exactly the pieces (for an overlap-free separator). -/
theorem splitOnL_joinSep {sep : Str} (hsep : sep ≠ []) (hno : noOverlap sep) :
    ∀ parts, parts ≠ [] → (∀ p ∈ parts, containsSub sep p = false) →
      splitOnL sep (joinSep sep parts) = parts := by
  intro parts
  induction parts with
  | nil => intro hne _; exact absurd rfl hne
  | cons p ps ih =>
    intro _ hall
    cases ps with
    | nil =>
      show splitOnL sep p = [p]
      exact splitOnL_of_not_contains p (hall p (List.mem_cons_self p []))
    | cons q t =>
      show splitOnL sep (p ++ sep ++ joinSep sep (q :: t)) = p :: q :: t
      rw [splitOnL_append_sep hsep hno p _ (hall p (List.mem_cons_self p (q :: t)))]
      rw [ih (by simp) (fun x hx => hall x (List.mem_cons_of_mem p hx))]

/-- The parts accepted before a `break` are an initial segment of the
iterated parts, in order. -/
theorem accumulateParts_pre (tc : TokenCounter) (st : Nat) (m : Int) :
    ∀ parts cur acc,
      TokenCounter.accumulateParts tc st m cur parts = some acc →
      acc <+: parts := by
  intro parts
  induction parts with
  | nil =>
    intro cur acc h
    simp [TokenCounter.accumulateParts] at h
  | cons fd rest ih =>
    intro cur acc h
    rw [TokenCounter.accumulateParts] at h
    by_cases hb :
        (cur + tc.count_tokens (MARKER ++ fd) + st : Int) > m
    · rw [if_pos hb] at h
      cases h
      exact List.nil_prefix
    · rw [if_neg hb] at h
      cases hr : TokenCounter.accumulateParts tc st m
          (cur + tc.count_tokens (MARKER ++ fd)) rest with
      | none => rw [hr] at h; cases h
      | some acc' =>
        rw [hr] at h
        cases h
        obtain ⟨t, ht⟩ := ih _ _ hr
        exact ⟨t, by simp [ht]⟩

theorem MARKER_ne_nil : MARKER ≠ [] := by decide

theorem MARKER_noOverlap : noOverlap MARKER := by
  unfold noOverlap
  decide

theorem SUFFIX_MULTI_not_contains : containsSub MARKER SUFFIX_MULTI = false := by
  decide

/-- A string beginning with the marker splits into an empty first piece
followed by the split of the remainder (so at least two pieces). -/
theorem splitOnL_marker_head {d : Str} (h : MARKER <+: d) :
    ∃ rest, splitOnL MARKER d = [] :: rest ∧ rest ≠ [] := by
  cases d with
  | nil =>
    obtain ⟨t, ht⟩ := h
    have : MARKER = [] := by
      cases hM : MARKER with
      | nil => rfl
      | cons a as => rw [hM] at ht; simp at ht
    exact absurd this MARKER_ne_nil
  | cons c cs =>
    exact ⟨splitOnL MARKER (cs.drop (MARKER.length - 1)),
      splitOnL_cons_pos c cs MARKER_ne_nil (prefOf_iff.mpr h),
      splitOnL_ne_nil MARKER _⟩

namespace TokenCounter

/-- Branch equation: over budget and with more than one split piece,
`truncate_intelligently` returns the assembled boundary-path result. -/
theorem truncate_intelligently_boundary (tc : TokenCounter) (d : Str)
    (m : Int) (ps : Bool)
    (hov : ¬ ((tc.count_tokens d : Int) ≤ m))
    (hlen : ¬ ((splitOnL MARKER d).length ≤ 1)) :
    tc.truncate_intelligently d m ps =
      (tc.assembleResult m (splitOnL MARKER d), tc.count_tokens d,
        tc.count_tokens (tc.assembleResult m (splitOnL MARKER d))) := by
  rw [truncate_intelligently]
  simp only [hov, hlen, if_false]

/-- Branch equation: over budget with at most one split piece,
`truncate_intelligently` delegates to `truncate_to_limit` with the generic
suffix. -/
theorem truncate_intelligently_raw (tc : TokenCounter) (d : Str)
    (m : Int) (ps : Bool)
    (hov : ¬ ((tc.count_tokens d : Int) ≤ m))
    (hlen : (splitOnL MARKER d).length ≤ 1) :
    tc.truncate_intelligently d m ps =
      tc.truncate_to_limit d m SUFFIX_SINGLE := by
  rw [truncate_intelligently]
  simp only [hov, hlen, if_false, if_true]

/-- Branch equation of the assembly when the loop breaks. -/
theorem assembleResult_break (tc : TokenCounter) (m : Int)
    (file_diffs : List Str) (accepted : List Str)
    (h : accumulateParts tc (tc.count_tokens SUFFIX_MULTI) m 0
        (if file_diffs.head? = some [] then file_diffs.tail else file_diffs)
        = some accepted) :
    tc.assembleResult m file_diffs =
      joinSep MARKER ([] :: (accepted ++ [SUFFIX_MULTI])) := by
  rw [assembleResult]
  simp [h]

/-- Branch equation of the assembly when the loop runs to completion. -/
theorem assembleResult_complete (tc : TokenCounter) (m : Int)
    (file_diffs : List Str)
    (h : accumulateParts tc (tc.count_tokens SUFFIX_MULTI) m 0
        (if file_diffs.head? = some [] then file_diffs.tail else file_diffs)
        = none) :
    tc.assembleResult m file_diffs =
      if file_diffs.head? = some [] then joinSep MARKER file_diffs
      else joinSep ['\n'] file_diffs := by
  rw [assembleResult]
  simp only [h]

end TokenCounter

/-!
Concrete fixtures used by witnesses and counterexamples.
-/

/-- A `TokenCounter` whose tokenizer is unavailable: every count uses the
`len(text) // 3` fallback, exactly as the source does without `tiktoken`. -/
def tcFB : TokenCounter := ⟨"openai", none⟩

/-- A concrete exact tokenizer model: one token per character, with perfect
`encode`/`decode` round trip. -/
def charEncoding : Encoding :=
  ⟨fun s => s.map Char.toNat, fun l => l.map Char.ofNat⟩

/-- A `TokenCounter` whose exact tokenizer is available (`charEncoding`). -/
def tcChar : TokenCounter := ⟨"openai", some charEncoding⟩

/-- Witness input for C1: a short in-budget text. -/
def dC1W : Str := "abc".toList

/-- Failing input for C2: marker + 10 chars + marker + 100 chars.  With the
budget 90, the loop accepts the first segment (20 tokens; 20 + 64-token
suffix fits) and breaks on the second; the reassembly then joins an extra
`'diff --git'` before the suffix. -/
def dC2 : Str :=
  MARKER ++ List.replicate 10 'a' ++ MARKER ++ List.replicate 100 'b'

/-- Counterexample input for C3: a multi-file diff with one junk character
before the first marker. -/
def dC3 : Str :=
  ['X'] ++ MARKER ++ List.replicate 40 'a' ++ MARKER ++ List.replicate 200 'b'

/-- Witness input for C3 (amended): a marker-initial two-file diff. -/
def dC3W : Str :=
  MARKER ++ List.replicate 40 'a' ++ MARKER ++ List.replicate 200 'b'

/-- Counterexample input for C7: a single-file diff (one marker occurrence,
at position 0). -/
def dC7 : Str := MARKER ++ List.replicate 100 'a'

/-- Witness input for C7 (amended): text with no marker at all. -/
def dC7W : Str := List.replicate 30 'x'

/-- Counterexample input for C8: junk-initial diff of 37 tiny segments; the
flooring in the `len // 3` estimate makes the per-segment sums (111 tokens
plus the 21-token suffix, at most 135) fit the budget 135 while the whole
text measures 136 tokens, so the loop completes although the text is over
budget. -/
def dC8 : Str := 'J' :: (List.replicate 37 (MARKER ++ ['A'])).flatten

/-- Witness input for C8 (amended): same shape but marker-initial, 34
segments, budget 123 (whole text measures 124 tokens). -/
def dC8W : Str := (List.replicate 34 (MARKER ++ ['A'])).flatten

/-!
Claim theorems.
-/

/-- Claim C1 (confirmed): when `count_tokens(diff_text) <= max_tokens`,
`truncate_intelligently` returns the text unchanged with
`original_tokens = final_tokens = count_tokens(diff_text)`. -/
theorem c1_idempotent_under_budget (tc : TokenCounter) (diff_text : Str)
    (max_tokens : Int) (preserve_start : Bool)
    (h : (tc.count_tokens diff_text : Int) ≤ max_tokens) :
    tc.truncate_intelligently diff_text max_tokens preserve_start =
      (diff_text, tc.count_tokens diff_text, tc.count_tokens diff_text) := by
  rw [TokenCounter.truncate_intelligently]
  simp only [h, if_true]

/-- Witness for C1 at a concrete in-budget input. -/
theorem c1_witness :
    ((tcFB.count_tokens dC1W : Int) ≤ 5) ∧
      tcFB.truncate_intelligently dC1W 5 true =
        (dC1W, tcFB.count_tokens dC1W, tcFB.count_tokens dC1W) :=
  ⟨by decide, c1_idempotent_under_budget tcFB dC1W 5 true (by decide)⟩

/-- Claim C4 (confirmed): `calculate_max_diff_tokens` returns at least 1000
for every model, style and (arbitrarily large or negative) integer
reservations. -/
theorem c4_floor (tc : TokenCounter) (model prompt_style : String)
    (output_reserve files_list_reserve safety_margin : Int) :
    1000 ≤ tc.calculate_max_diff_tokens model prompt_style output_reserve
      files_list_reserve safety_margin := by
  rw [TokenCounter.calculate_max_diff_tokens]
  exact le_max_right _ _

/-- Counterexample for C5: the scenario value is not 5392, because the
`commit_conventional` prompt-size estimate in the source is 600, not 700. -/
theorem c5_counterexample :
    tcFB.calculate_max_diff_tokens "gpt-4" "commit_conventional" 1500 100 500
      ≠ 5392 := by decide

/-- Claim C5 (corrected): with model limit 8192 and the source's
`commit_conventional` estimate of 600, the scenario yields
`8192 - 600 - 1500 - 100 - 500 = 5492`. -/
theorem c5_scenario_value :
    tcFB.calculate_max_diff_tokens "gpt-4" "commit_conventional" 1500 100 500
      = 5492 := by decide

/-- Counterexample for C6: a call omitting `output_reserve` is well-formed
and equal to the call with `output_reserve = 1000` (the built-in default of
source line 116), and differs from the call with `output_reserve = 0` —
so `output_reserve` does have a built-in default. -/
theorem c6_counterexample :
    tcFB.calculate_max_diff_tokens "gpt-4"
        = tcFB.calculate_max_diff_tokens "gpt-4" "commit_conventional"
            1000 100 500
      ∧ tcFB.calculate_max_diff_tokens "gpt-4"
        ≠ tcFB.calculate_max_diff_tokens "gpt-4" "commit_conventional"
            0 100 500 := ⟨rfl, by decide⟩

/-- Claim C6 (corrected): when the reservation parameters are omitted,
`files_list_reserve` defaults to 100, `safety_margin` to 500, and
`output_reserve` to 1000. -/
theorem c6_default_values (tc : TokenCounter) (model prompt_style : String) :
    tc.calculate_max_diff_tokens model prompt_style =
      tc.calculate_max_diff_tokens model prompt_style 1000 100 500 := rfl

/-- Helper for C9: once the cache holds a constructed encoding, no further
construction attempt is ever made. -/
theorem runCalls_cached (e : Encoding) :
    ∀ cs, (runCalls ⟨some e⟩ cs).2 = 0 := by
  intro cs
  induction cs with
  | nil => rfl
  | cons c cs ih => simp [runCalls, _get_encoding, ih]

/-- Counterexample for C9: two calls whose constructions both fail perform
two construction attempts, not at most one. -/
theorem c9_counterexample :
    ¬ ((runCalls ⟨none⟩ ([none, none] : List (Option Encoding))).2 ≤ 1) := by
  decide

/-- Claim C9 (corrected): a successful construction is cached and never
re-attempted, but a failed construction stores `None` back into the cache,
so construction is re-attempted on every subsequent call until one
succeeds: the attempt count equals `attemptsUntilSuccess`. -/
theorem c9_memoization :
    (∀ (e : Encoding) (cs : List (Option Encoding)),
        (runCalls ⟨some e⟩ cs).2 = 0) ∧
      (∀ cs : List (Option Encoding),
        (runCalls ⟨none⟩ cs).2 = attemptsUntilSuccess cs) := by
  constructor
  · exact fun e => runCalls_cached e
  · intro cs
    induction cs with
    | nil => rfl
    | cons c cs ih =>
      cases c with
      | some e =>
        simp [runCalls, _get_encoding, attemptsUntilSuccess, runCalls_cached e]
      | none =>
        simp [runCalls, _get_encoding, attemptsUntilSuccess, ih]

/-- Claim C10 (confirmed): `truncate_intelligently` never reads
`preserve_start`; the two calls return identical triples. -/
theorem c10_preserve_start_ignored (tc : TokenCounter) (diff_text : Str)
    (max_tokens : Int) :
    tc.truncate_intelligently diff_text max_tokens true =
      tc.truncate_intelligently diff_text max_tokens false := rfl

set_option maxRecDepth 400000 in
/-- Claim C2 (code bug), evaluated at the failing input: with the exact
tokenizer available (`charEncoding`), `dC2` exceeds the budget 90 and is
multi-file, yet the returned text re-measures to 94 tokens — above
`max_tokens` — because the reassembly join inserts an unbudgeted
`'diff --git'` before the truncation suffix. -/
theorem c2_bound_violation :
    ¬ ((tcChar.count_tokens dC2 : Int) ≤ 90) ∧
      1 < (splitOnL MARKER dC2).length ∧
      (tcChar.truncate_intelligently dC2 90 true).2.2 = 94 ∧
      tcChar.count_tokens (tcChar.truncate_intelligently dC2 90 true).1 = 94 := by
  decide

set_option maxRecDepth 400000 in
/-- Counterexample for C7: a single-file diff that exceeds the budget does
not delegate to the raw truncation — it splits into two pieces
(`['', body]`), takes the boundary path, and its result neither equals the
`truncate_to_limit` result nor ends with the generic suffix. -/
theorem c7_counterexample :
    ¬ ((tcChar.count_tokens dC7 : Int) ≤ 30) ∧
      (MARKER <+: dC7 ∧ containsSub MARKER (List.replicate 100 'a') = false) ∧
      (splitOnL MARKER dC7).length = 2 ∧
      tcChar.truncate_intelligently dC7 30 true ≠
        tcChar.truncate_to_limit dC7 30 SUFFIX_SINGLE ∧
      ¬ SUFFIX_SINGLE <:+ (tcChar.truncate_intelligently dC7 30 true).1 := by
  decide

/-- Claim C7 (corrected): for every over-budget input whose split on the
marker yields at most one piece (equivalently: the marker does not occur in
the text), `truncate_intelligently` delegates to `truncate_to_limit` with
the generic "too large for context window" suffix, and the result ends
with that suffix. -/
theorem c7_raw_fallback (tc : TokenCounter) (diff_text : Str)
    (max_tokens : Int) (preserve_start : Bool)
    (hov : ¬ ((tc.count_tokens diff_text : Int) ≤ max_tokens))
    (hsplit : (splitOnL MARKER diff_text).length ≤ 1) :
    tc.truncate_intelligently diff_text max_tokens preserve_start =
        tc.truncate_to_limit diff_text max_tokens SUFFIX_SINGLE ∧
      SUFFIX_SINGLE <:+
        (tc.truncate_intelligently diff_text max_tokens preserve_start).1 := by
  have heq :=
    tc.truncate_intelligently_raw diff_text max_tokens preserve_start hov hsplit
  refine ⟨heq, ?_⟩
  rw [heq, TokenCounter.truncate_to_limit]
  simp only [hov, if_false]
  cases henc : tc._encoding with
  | some e => simp only [henc]; exact List.suffix_append _ _
  | none => simp only [henc]; exact List.suffix_append _ _

/-- Witness for C7 (amended) at a concrete marker-free over-budget input. -/
theorem c7_witness :
    (¬ ((tcFB.count_tokens dC7W : Int) ≤ 3)) ∧
      (splitOnL MARKER dC7W).length ≤ 1 ∧
      (tcFB.truncate_intelligently dC7W 3 true =
          tcFB.truncate_to_limit dC7W 3 SUFFIX_SINGLE ∧
        SUFFIX_SINGLE <:+ (tcFB.truncate_intelligently dC7W 3 true).1) :=
  ⟨by decide, by decide,
    c7_raw_fallback tcFB dC7W 3 true (by decide) (by decide)⟩

set_option maxRecDepth 1000000 in
/-- Counterexample for C3: on a multi-file diff with one junk character
before the first marker, the boundary path emits a leading marker that was
not in the original, so splitting the result yields an empty piece that is
neither a piece of the original split nor the truncation notice. -/
theorem c3_counterexample :
    ¬ ((tcChar.count_tokens dC3 : Int) ≤ 150) ∧
      1 < (splitOnL MARKER dC3).length ∧
      ([] : Str) ∈ splitOnL MARKER (tcChar.truncate_intelligently dC3 150 true).1 ∧
      ([] : Str) ∉ splitOnL MARKER dC3 ∧
      ([] : Str) ≠ SUFFIX_MULTI := by
  decide

/-- Claim C3 (corrected): for every over-budget diff that begins with the
marker, splitting the returned text on the marker yields exactly an initial
segment of the original split followed by the truncation notice (so every
piece is a byte-identical full copy of an original piece, in original
order, apart from the notice) — or the text is returned whole. -/
theorem c3_boundary_segments (tc : TokenCounter) (d : Str) (m : Int)
    (preserve_start : Bool)
    (hov : ¬ ((tc.count_tokens d : Int) ≤ m))
    (hpre : MARKER <+: d) :
    (∃ j, splitOnL MARKER (tc.truncate_intelligently d m preserve_start).1
        = (splitOnL MARKER d).take j ++ [SUFFIX_MULTI])
      ∨ (tc.truncate_intelligently d m preserve_start).1 = d := by
  obtain ⟨rest, hsp, hne⟩ := splitOnL_marker_head hpre
  have hrpos : 0 < rest.length := List.length_pos.mpr hne
  have hlen : ¬ ((splitOnL MARKER d).length ≤ 1) := by
    rw [hsp]
    simp only [List.length_cons]
    omega
  have heq := tc.truncate_intelligently_boundary d m preserve_start hov hlen
  have hparts :
      (if (splitOnL MARKER d).head? = some [] then (splitOnL MARKER d).tail
        else splitOnL MARKER d) = rest := by
    rw [hsp]; simp
  cases hacc : TokenCounter.accumulateParts tc (tc.count_tokens SUFFIX_MULTI)
      m 0 rest with
  | some accepted =>
    left
    have hbr := tc.assembleResult_break m (splitOnL MARKER d) accepted
      (by rw [hparts]; exact hacc)
    have hres : (tc.truncate_intelligently d m preserve_start).1
        = joinSep MARKER ([] :: (accepted ++ [SUFFIX_MULTI])) := by
      rw [heq]; exact hbr
    have hcopy : ∀ p ∈ ([] :: (accepted ++ [SUFFIX_MULTI]) : List Str),
        containsSub MARKER p = false := by
      intro p hp
      rcases List.mem_cons.mp hp with h0 | hmem
      · subst h0; decide
      rcases List.mem_append.mp hmem with hacc' | hsuf
      · have hsub : accepted ⊆ rest :=
          (accumulateParts_pre tc (tc.count_tokens SUFFIX_MULTI) m rest 0
            accepted hacc).subset
        have hpmem : p ∈ splitOnL MARKER d := by
          rw [hsp]; exact List.mem_cons_of_mem [] (hsub hacc')
        exact splitOnL_not_contains MARKER_ne_nil d.length d le_rfl p hpmem
      · simp only [List.mem_singleton] at hsuf
        subst hsuf
        exact SUFFIX_MULTI_not_contains
    have hsplit := splitOnL_joinSep MARKER_ne_nil MARKER_noOverlap
      ([] :: (accepted ++ [SUFFIX_MULTI])) (by simp) hcopy
    refine ⟨accepted.length + 1, ?_⟩
    rw [hres, hsplit, hsp]
    have htake : accepted = rest.take accepted.length :=
      List.prefix_iff_eq_take.mp
        (accumulateParts_pre tc (tc.count_tokens SUFFIX_MULTI) m rest 0
          accepted hacc)
    rw [List.take_succ_cons, ← htake]
    simp
  | none =>
    right
    have hcomp := tc.assembleResult_complete m (splitOnL MARKER d)
      (by rw [hparts]; exact hacc)
    have hres : (tc.truncate_intelligently d m preserve_start).1
        = if (splitOnL MARKER d).head? = some []
          then joinSep MARKER (splitOnL MARKER d)
          else joinSep ['\n'] (splitOnL MARKER d) := by
      rw [heq]; exact hcomp
    rw [hres, hsp]
    simp only [List.head?_cons, if_pos]
    rw [← hsp]
    exact joinSep_splitOnL MARKER_ne_nil d.length d le_rfl

set_option maxRecDepth 1000000 in
/-- Witness for C3 (amended) at a concrete marker-initial two-file diff. -/
theorem c3_witness :
    (¬ ((tcChar.count_tokens dC3W : Int) ≤ 150)) ∧ (MARKER <+: dC3W) ∧
      ((∃ j, splitOnL MARKER (tcChar.truncate_intelligently dC3W 150 true).1
          = (splitOnL MARKER dC3W).take j ++ [SUFFIX_MULTI])
        ∨ (tcChar.truncate_intelligently dC3W 150 true).1 = dC3W) :=
  ⟨by decide, by decide,
    c3_boundary_segments tcChar dC3W 150 true (by decide) (by decide)⟩

set_option maxRecDepth 1000000 in
/-- Counterexample for C8: a junk-initial diff whose accumulation loop
completes (the per-piece token sums under-count the whole because of the
`len // 3` flooring) is reassembled with `'\n'.join`, which replaces every
marker by a newline — the result is not byte-identical to the input. -/
theorem c8_counterexample :
    ¬ ((tcFB.count_tokens dC8 : Int) ≤ 135) ∧
      1 < (splitOnL MARKER dC8).length ∧
      TokenCounter.accumulateParts tcFB (tcFB.count_tokens SUFFIX_MULTI) 135 0
        (if (splitOnL MARKER dC8).head? = some [] then (splitOnL MARKER dC8).tail
          else splitOnL MARKER dC8) = none ∧
      (tcFB.truncate_intelligently dC8 135 true).1 ≠ dC8 := by
  decide

/-- Claim C8 (corrected): when the diff begins with the marker, exceeds the
budget, and the accumulation loop completes without breaking, the returned
text is byte-identical to the input. -/
theorem c8_lossless_reassembly (tc : TokenCounter) (d : Str) (m : Int)
    (preserve_start : Bool)
    (hov : ¬ ((tc.count_tokens d : Int) ≤ m))
    (hpre : MARKER <+: d)
    (hloop : TokenCounter.accumulateParts tc (tc.count_tokens SUFFIX_MULTI) m 0
        ((splitOnL MARKER d).tail) = none) :
    (tc.truncate_intelligently d m preserve_start).1 = d := by
  obtain ⟨rest, hsp, hne⟩ := splitOnL_marker_head hpre
  have hrpos : 0 < rest.length := List.length_pos.mpr hne
  have hlen : ¬ ((splitOnL MARKER d).length ≤ 1) := by
    rw [hsp]
    simp only [List.length_cons]
    omega
  have heq := tc.truncate_intelligently_boundary d m preserve_start hov hlen
  have hparts :
      (if (splitOnL MARKER d).head? = some [] then (splitOnL MARKER d).tail
        else splitOnL MARKER d) = (splitOnL MARKER d).tail := by
    rw [hsp]; simp
  have hcomp := tc.assembleResult_complete m (splitOnL MARKER d)
    (by rw [hparts]; exact hloop)
  have hres : (tc.truncate_intelligently d m preserve_start).1
      = if (splitOnL MARKER d).head? = some []
        then joinSep MARKER (splitOnL MARKER d)
        else joinSep ['\n'] (splitOnL MARKER d) := by
    rw [heq]; exact hcomp
  rw [hres, hsp]
  simp only [List.head?_cons, if_pos]
  rw [← hsp]
  exact joinSep_splitOnL MARKER_ne_nil d.length d le_rfl

set_option maxRecDepth 1000000 in
/-- Witness for C8 (amended) at a concrete marker-initial diff whose loop
completes although the text is over budget. -/
theorem c8_witness :
    (¬ ((tcFB.count_tokens dC8W : Int) ≤ 123)) ∧ (MARKER <+: dC8W) ∧
      TokenCounter.accumulateParts tcFB (tcFB.count_tokens SUFFIX_MULTI) 123 0
        ((splitOnL MARKER dC8W).tail) = none ∧
      (tcFB.truncate_intelligently dC8W 123 true).1 = dC8W :=
  ⟨by decide, by decide, by decide,
    c8_lossless_reassembly tcFB dC8W 123 true (by decide) (by decide)
      (by decide)⟩
